import Mathlib

/-!
# LifeTracer — verification of the specified behaviours

Shallow embedding of the parts of the LifeTracer backend (Python) that the
checked claims are about:

* `backend/caching/cache_manager.py` (disk cache) and
  `backend/caching/redis_cache_manager.py` (Redis cache),
* `backend/middleware/rate_limiter.py` (sliding-window rate limiter),
* `backend/services/biography_service.py` (paragraph merging, chunked
  extraction strategies, request coalescing),
* `backend/llm/llm_client.py` (`chat_batch`) and
  `backend/llm/langchain_processor.py` (map/reduce graph, deduplication).

Machine-level effects (file IO, network) are modelled by explicit stores and
by oracles for the outcomes of LLM calls; time is modelled by exact rational
numbers; Python exceptions are modelled with `Except`.
-/

namespace LifeTracer

/-! ## Cache managers

`CacheManager` (disk backend, `cache_manager.py`) keeps one JSON file per key.
We model the cache directory as an association list from keys to file
contents.  A file either parses as an entry `{data, expire_time}` or is
corrupt (unparsable JSON).  `expire_time` is an absolute time; Python stores
ISO timestamps, modelled here as rationals. -/

/-- Contents of one disk-cache file: either a well-formed JSON entry holding
the data and an optional absolute expiry time, or unparsable JSON. -/
inductive DiskFile (V : Type) where
  | entry (data : V) (expireTime : Option ℚ)
  | corrupt
  deriving DecidableEq, Repr

/-- The cache directory: one file per key (association list, unique keys by
construction of the operations). -/
abbrev DiskStore (V : Type) := List (String × DiskFile V)

/-- Look up the file stored for a key (`os.path.exists` + read). -/
def diskLookup {V : Type} (store : DiskStore V) (key : String) : Option (DiskFile V) :=
  (store.find? (fun kv => kv.1 = key)).map (·.2)

/-- Remove the file for a key (`_delete_cache_file`). -/
def diskRemove {V : Type} (store : DiskStore V) (key : String) : DiskStore V :=
  store.filter (fun kv => kv.1 ≠ key)

/-- `CacheManager.get` (`cache_manager.py`, lines 28-54): missing file →
`None`; unparsable JSON → the exception is caught by the outer `except`,
which logs and returns `None` **without touching the file**; expired entry
(strictly past its expiry) → the file is deleted and `None` returned;
otherwise the stored data is returned.  Result: (returned value, resulting
store). -/
def diskGet {V : Type} (store : DiskStore V) (now : ℚ) (key : String) :
    Option V × DiskStore V :=
  match diskLookup store key with
  | none => (none, store)
  | some .corrupt => (none, store)
  | some (.entry data expireTime) =>
    match expireTime with
    | some t => if t < now then (none, diskRemove store key) else (some data, store)
    | none => (some data, store)

/-- `CacheManager.set` (`cache_manager.py`, lines 56-79): writes the entry
file, recording `now + expire` as the expiry when `expire` is truthy
(`if expire:` — both `None` and `0` are falsy) and no expiry otherwise. -/
def diskSet {V : Type} (store : DiskStore V) (now : ℚ) (key : String) (data : V)
    (expire : Option ℚ) : DiskStore V :=
  let expireTime : Option ℚ :=
    match expire with
    | some e => if e ≠ 0 then some (now + e) else none
    | none => none
  (key, .entry data expireTime) :: diskRemove store key

/-- `CacheManager.get_cache_stats` total-file count (`cache_manager.py`,
lines 135-173): every `.json` file in the directory is counted in
`total_files`, corrupt ones included. -/
def diskStatsTotalFiles {V : Type} (store : DiskStore V) : ℕ := store.length

/-- `CacheManager.clear_expired` (`cache_manager.py`, lines 101-133): deletes
every expired file and — via its `except` branch — every corrupt file. -/
def diskClearExpired {V : Type} (store : DiskStore V) (now : ℚ) : DiskStore V :=
  store.filter (fun kv =>
    match kv.2 with
    | .corrupt => false
    | .entry _ (some t) => ¬ t < now
    | .entry _ none => true)

/-! The Redis backend (`redis_cache_manager.py`).  Redis expiry is native:
an expired key behaves as absent.  A stored payload either parses as JSON or
is corrupt. -/

/-- One Redis value: the payload (well-formed or corrupt) plus the native
expiry time set by `SETEX`, if any. -/
inductive RedisPayload (V : Type) where
  | rdata (data : V)
  | rcorrupt
  deriving DecidableEq, Repr

abbrev RedisStore (V : Type) := List (String × (RedisPayload V × Option ℚ))

def redisLookup {V : Type} (store : RedisStore V) (key : String) :
    Option (RedisPayload V × Option ℚ) :=
  (store.find? (fun kv => kv.1 = key)).map (·.2)

def redisRemove {V : Type} (store : RedisStore V) (key : String) : RedisStore V :=
  store.filter (fun kv => kv.1 ≠ key)

/-- Is a Redis key absent-or-expired at time `now`?  Redis removes expired
keys natively, so `GET` sees them as missing. -/
def redisExpired (expireAt : Option ℚ) (now : ℚ) : Bool :=
  match expireAt with
  | some t => t ≤ now
  | none => false

/-- `RedisCacheManager.get` (`redis_cache_manager.py`, lines 65-99): absent
or natively expired key → `None`; stored payload that fails `json.loads` →
the `JSONDecodeError` branch **deletes the key** and returns `None`;
otherwise the data. -/
def redisGet {V : Type} (store : RedisStore V) (now : ℚ) (key : String) :
    Option V × RedisStore V :=
  match redisLookup store key with
  | none => (none, store)
  | some (payload, expireAt) =>
    if redisExpired expireAt now then (none, redisRemove store key)
    else
      match payload with
      | .rcorrupt => (none, redisRemove store key)
      | .rdata data => (some data, store)

/-- `RedisCacheManager.set` (`redis_cache_manager.py`, lines 101-136):
`if expire:` — truthy expiry (`SETEX`) records `now + expire`; `None` or `0`
falls to the plain `SET` branch with no expiry. -/
def redisSet {V : Type} (store : RedisStore V) (now : ℚ) (key : String) (data : V)
    (expire : Option ℚ) : RedisStore V :=
  match expire with
  | some e =>
    if e ≠ 0 then (key, (.rdata data, some (now + e))) :: redisRemove store key
    else (key, (.rdata data, none)) :: redisRemove store key
  | none => (key, (.rdata data, none)) :: redisRemove store key

/-! ## Rate limiter (`middleware/rate_limiter.py`)

`RateLimiterMiddleware._is_rate_limited` keeps, per client IP, the list of
admission timestamps.  `time.time()` values are modelled as rationals. -/

/-- Result of one `_is_rate_limited` check: whether the request is limited,
the client's updated timestamp list, and the reported counters. -/
structure RateLimitResult where
  isLimited : Bool
  newTimestamps : List ℚ
  currentRequests : ℕ
  remainingRequests : ℤ
  deriving DecidableEq, Repr

/-- `_is_rate_limited` (`rate_limiter.py`, lines 101-134) for one client:
prune timestamps with `ts > now - window` (strictly newer than the cutoff
survive), reject without appending when the pruned count reaches
`requests_per_minute`, otherwise append `now` and admit. -/
def is_rate_limited (requestsPerMinute : ℕ) (windowSize : ℚ)
    (timestamps : List ℚ) (now : ℚ) : RateLimitResult :=
  let cutoff := now - windowSize
  let validRequests := timestamps.filter (fun ts => cutoff < ts)
  let currentRequests := validRequests.length
  let remainingRequests : ℤ := max 0 ((requestsPerMinute : ℤ) - currentRequests)
  let isLimited := requestsPerMinute ≤ currentRequests
  if isLimited then
    ⟨true, validRequests, currentRequests, remainingRequests⟩
  else
    ⟨false, validRequests ++ [now], currentRequests + 1, remainingRequests - 1⟩

/-- Run a sequence of requests (their arrival times) for one client through
`_is_rate_limited`, threading the per-client timestamp list; returns the
admission verdicts (`true` = limited/rejected) and the final timestamp
list. -/
def processRequests (requestsPerMinute : ℕ) (windowSize : ℚ)
    (timestamps : List ℚ) : List ℚ → List Bool × List ℚ
  | [] => ([], timestamps)
  | now :: rest =>
    let r := is_rate_limited requestsPerMinute windowSize timestamps now
    let ⟨verdicts, final⟩ := processRequests requestsPerMinute windowSize r.newTimestamps rest
    (r.isLimited :: verdicts, final)

/-! ## Short-paragraph merging (`services/biography_service.py`)

Python strings are modelled as lists of characters (`len` = list length,
`+` = append). -/

/-- A Python string: sequence of characters. -/
abbrev Str := List Char

/-- `BiographyService.MIN_PARAGRAPH_LENGTH` (line 22). -/
def MIN_PARAGRAPH_LENGTH : ℕ := 200

/-- The paragraph separator `"\n\n"` used both when splitting the biography
text and when gluing a short paragraph to its successor. -/
def paragraphSep : Str := ['\n', '\n']

/-- `BiographyService._merge_short_paragraphs` (lines 471-503): walk the
paragraph list; a paragraph shorter than `MIN_PARAGRAPH_LENGTH` that is not
the last is concatenated (with `"\n\n"`) to the next paragraph and both are
consumed; otherwise the paragraph is kept as is. -/
def merge_short_paragraphs : List Str → List Str
  | [] => []
  | [p] => [p]
  | p :: q :: rest =>
    if p.length < MIN_PARAGRAPH_LENGTH then
      (p ++ paragraphSep ++ q) :: merge_short_paragraphs rest
    else
      p :: merge_short_paragraphs (q :: rest)

/-- Join a list of paragraphs with the `"\n\n"` separator (the inverse of the
split that produced them). -/
def joinParagraphs : List Str → Str
  | [] => []
  | [p] => p
  | p :: q :: rest => p ++ paragraphSep ++ joinParagraphs (q :: rest)

/-! ## Per-chunk trajectory caps -/

/-- The per-chunk cap in `_parse_mode_3` (`biography_service.py`, line 370):
`max(1, min(10, 30 // len(paragraphs)))`. -/
def mode3MaxTrajectoriesPerParagraph (paragraphCount : ℕ) : ℕ :=
  max 1 (min 10 (30 / paragraphCount))

/-- `LangChainProcessor._calculate_max_trajectories`
(`langchain_processor.py`, lines 187-203) with the default configuration
(`max_trajectories_per_chunk = 10`, `total_trajectories_target = 40`):
one chunk or fewer gets the full per-chunk cap, otherwise
`max(1, min(10, 40 // total_chunks))`. -/
def calculate_max_trajectories (totalChunks : ℕ) : ℕ :=
  if totalChunks ≤ 1 then 10
  else max 1 (min 10 (40 / totalChunks))

/-! ## Trajectory data and deduplication

A trajectory point is a JSON dict with at least `time` and `location` fields;
`payload` stands for the remaining fields (description, coordinates, …), so
that two points with equal keys can still be distinguished.  The merged lists
coming back from the LLM may also contain non-dict elements, which
`_deduplicate_data` skips. -/

inductive TrajItem where
  | dict (time : String) (location : String) (payload : ℕ)
  | nondict (payload : ℕ)
  deriving DecidableEq, Repr

/-- The dedup key `tuple(item.get(field, "") for field in ["time", "location"])`;
`none` for non-dict items (which the loop skips before computing a key). -/
def itemKey : TrajItem → Option (String × String)
  | .dict t l _ => some (t, l)
  | .nondict _ => none

/-- The loop body of `LangChainProcessor._deduplicate_data`
(`langchain_processor.py`, lines 439-472) specialised to
`key_fields = ["time", "location"]` and no `sort_key`: skip non-dicts, skip
items whose key was already seen, otherwise emit the item and record its
key. -/
def deduplicate_go (seen : List (String × String)) : List TrajItem → List TrajItem
  | [] => []
  | item :: rest =>
    match itemKey item with
    | none => deduplicate_go seen rest
    | some k =>
      if k ∈ seen then deduplicate_go seen rest
      else item :: deduplicate_go (k :: seen) rest

/-- `_deduplicate_data(data, ["time", "location"])`. -/
def deduplicate_data (data : List TrajItem) : List TrajItem :=
  deduplicate_go [] data

/-- The result shape shared by all parse modes: `person_name` plus the
trajectory list (`life_trajectory` in the LangChain pipeline). -/
structure TrajData where
  person_name : String
  trajectory : List TrajItem
  deriving DecidableEq, Repr

/-- `{"person_name": "", "trajectory": []}`. -/
def emptyTrajData : TrajData := ⟨"", []⟩

/-- `LangChainProcessor._validate_result` (lines 413-437): deduplicate the
trajectory by `(time, location)`. -/
def validate_result (t : TrajData) : TrajData :=
  ⟨t.person_name, deduplicate_data t.trajectory⟩

/-! ## `LLMClient.chat_batch` (`llm_client.py`, lines 62-125)

`asyncio.gather(..., return_exceptions=True)` collects every per-request
outcome (a result or an exception object) in request order; the loop that
follows re-raises at the **first** exception found, so one failed request
fails the whole batch.  A per-request outcome is modelled as
`Except String α`. -/

def chat_batch {α : Type} : List (Except String α) → Except String (List α)
  | [] => .ok []
  | .error e :: _ => .error e
  | .ok a :: rest =>
    match chat_batch rest with
    | .error e => .error e
    | .ok results => .ok (a :: results)

/-! ## Mode 3 — concurrent chunked strategy
(`BiographyService._parse_mode_3`, `biography_service.py`, lines 352-413)

Each paragraph produces one LLM call; the outcome of each call (after the
batch succeeds) is a response string that is then `json.loads`-parsed inside
a `try`.  A response is modelled by what the merge loop can observe of it: -/

inductive Mode3Response where
  /-- a falsy (empty) response string: skipped by `if response:` -/
  | empty
  /-- `json.loads` raises (or the value has the wrong type): caught by the
  `except (json.JSONDecodeError, TypeError)` and skipped -/
  | unparsable
  /-- a parsed dict: `person_name` (`""` when missing or empty) and the
  `trajectory` list (`none` when the key is missing or not a list) -/
  | parsed (personName : String) (trajectory : Option (List TrajItem))
  deriving DecidableEq, Repr

/-- The merge loop of `_parse_mode_3` (lines 396-407): accumulate the first
non-empty `person_name` and concatenate every well-formed `trajectory`
list. -/
def mode3MergeLoop (personName : String) (traj : List TrajItem) :
    List Mode3Response → String × List TrajItem
  | [] => (personName, traj)
  | .empty :: rest => mode3MergeLoop personName traj rest
  | .unparsable :: rest => mode3MergeLoop personName traj rest
  | .parsed nm tr :: rest =>
    mode3MergeLoop (if personName = "" ∧ nm ≠ "" then nm else personName)
      (traj ++ tr.getD []) rest

/-- Merge the batch responses and default the person name to `"Unknown"`
(lines 390-413). -/
def merge_responses (responses : List Mode3Response) : TrajData :=
  let r := mode3MergeLoop "" [] responses
  ⟨if r.1 = "" then "Unknown" else r.1, r.2⟩

/-- `_parse_mode_3` from the point where the per-paragraph prompts have been
sent: `chat_batch` over the per-chunk outcomes (it raises if any chunk call
raised), then the merge loop over the returned responses. -/
def parse_mode_3_core (outcomes : List (Except String Mode3Response)) :
    Except String TrajData :=
  match chat_batch outcomes with
  | .error e => .error e
  | .ok responses => .ok (merge_responses responses)

/-! ## Mode 4 — semantic chunked strategy with reduce
(`LangChainProcessor` + `BiographyService._parse_mode_4`)

The LangChain text splitter and the LLM calls are external collaborators,
modelled as oracle inputs: the split documents, the per-document map-call
outcomes, and the outcome of the final reduce call.  `_parse_result` turns
the reduce output into a `TrajData` (returning the empty result when the
output fails to parse), so the reduce oracle directly carries
`Except String TrajData`, with parse failure showing up as `.ok emptyTrajData`. -/

/-- `LangChainProcessor._map_documents_node` (lines 226-259):
`asyncio.gather(..., return_exceptions=True)` over the per-document calls,
then exceptions are filtered out with a warning; the node never sets the
state's `error` field on this path.  Returns (`map_results`, `error`). -/
def map_documents_node (outcomes : List (Except String String)) :
    List String × Option String :=
  (outcomes.filterMap (fun r => match r with | .ok s => some s | .error _ => none),
   none)

/-- `LangChainProcessor._reduce_results_node` (lines 261-302): with no map
results it returns the empty result without calling the LLM; otherwise the
reduce call's outcome decides between a final result and an `error` state.
Returns (parsed final result, `error`). -/
def reduce_results_node (mapResults : List String)
    (reduceOutcome : Except String TrajData) : TrajData × Option String :=
  if mapResults.isEmpty then (emptyTrajData, none)
  else
    match reduceOutcome with
    | .ok t => (t, none)
    | .error e => (emptyTrajData, some e)

/-- `LangChainProcessor._process_documents` (lines 325-365): empty document
list → empty result; otherwise run the graph (map node, then reduce node)
and raise if the final state carries an error. -/
def process_documents (docs : List String) (mapOutcomes : List (Except String String))
    (reduceOutcome : Except String TrajData) : Except String TrajData :=
  if docs.isEmpty then .ok emptyTrajData
  else
    let mapResults := (map_documents_node mapOutcomes).1
    let r := reduce_results_node mapResults reduceOutcome
    match r.2 with
    | some e => .error e
    | none => .ok r.1

/-- `LangChainProcessor.process_biography` (lines 117-148): blank input
raises `ValueError`; otherwise split (oracle `docs`), process, and validate
(deduplicate). -/
def process_biography (text : Str) (docs : List String)
    (mapOutcomes : List (Except String String))
    (reduceOutcome : Except String TrajData) : Except String TrajData :=
  if text.all (·.isWhitespace) then .error "ValueError: Biography text cannot be empty"
  else
    match process_documents docs mapOutcomes reduceOutcome with
    | .error e => .error e
    | .ok t => .ok (validate_result t)

/-- The collaborators of one `_parse_mode_4` run: whether the LangChain
processor initialised, the oracle outcomes of the LangChain pipeline, and
the per-chunk outcomes the fallback mode-3 run would observe. -/
structure Mode4Env where
  processorInitialized : Bool
  docs : List String
  mapOutcomes : List (Except String String)
  reduceOutcome : Except String TrajData
  mode3Outcomes : List (Except String Mode3Response)

/-- `BiographyService._parse_mode_4` (`biography_service.py`, lines 415-469):
no processor → mode 3; any exception from the LangChain pipeline → mode 3;
an empty extracted trajectory → mode 3; otherwise the LangChain result. -/
def parse_mode_4 (env : Mode4Env) (text : Str) : Except String TrajData :=
  if ¬env.processorInitialized then parse_mode_3_core env.mode3Outcomes
  else
    match process_biography text env.docs env.mapOutcomes env.reduceOutcome with
    | .error _ => parse_mode_3_core env.mode3Outcomes
    | .ok result =>
      if result.trajectory.isEmpty then parse_mode_3_core env.mode3Outcomes
      else .ok ⟨result.person_name, result.trajectory⟩

/-! ## Request coalescing (`BiographyService.get_biography`, lines 55-131)

Concurrent `get_biography` calls for the same cache key are modelled per key
(locks and cache entries of distinct keys are independent).  asyncio is
cooperative: code between two `await` points runs atomically, so each atomic
region of the protocol is one transition.  For one key, each concurrent
caller runs:

1. first cache check (`await self.cache.get`) — hit → return;
2. `lock = self._request_locks.setdefault(cache_key, asyncio.Lock())`
   (atomic: no await) and `async with lock` — wait to acquire;
3. second cache check under the lock — hit → release and return;
4. invoke the upstream pipeline (Wikipedia fetch + extraction), cache the
   result, release, return.

The compute pipeline is assumed to succeed and the cache to retain what was
stored (`cache.set` succeeds, no expiry within the run), which is the
setting of the coalescing claim. -/

/-- Program counter of one concurrent caller. -/
inductive CallerPC where
  /-- before the first cache check -/
  | start
  /-- cache miss seen, waiting to acquire the per-key lock -/
  | waiting
  /-- holding the lock, about to re-check the cache -/
  | critical
  /-- upstream pipeline invocation in flight (still holding the lock) -/
  | inflight
  /-- returned -/
  | done
  deriving DecidableEq, Repr

/-- Global state for one cache key: whether the cache holds a value, which
caller (if any) holds the per-key lock, how many pipeline invocations have
started, and each caller's program counter. -/
structure CoalesceConfig where
  cache : Bool
  lockHolder : Option ℕ
  invocations : ℕ
  pc : List CallerPC
  deriving DecidableEq, Repr

/-- Initial state: cold cache, free lock, `n` callers about to start. -/
def coalesceInit (n : ℕ) : CoalesceConfig :=
  ⟨false, none, 0, List.replicate n .start⟩

/-- One atomic step of some caller `i` (atomicity boundaries are the `await`
points of `get_biography`). -/
inductive CoalesceStep : CoalesceConfig → CoalesceConfig → Prop
  /-- first cache check hits: return the cached value -/
  | check1_hit (c : CoalesceConfig) (i : ℕ) (h : c.pc[i]? = some .start)
      (hc : c.cache = true) :
      CoalesceStep c ⟨c.cache, c.lockHolder, c.invocations, c.pc.set i .done⟩
  /-- first cache check misses: go wait for the per-key lock -/
  | check1_miss (c : CoalesceConfig) (i : ℕ) (h : c.pc[i]? = some .start)
      (hc : c.cache = false) :
      CoalesceStep c ⟨c.cache, c.lockHolder, c.invocations, c.pc.set i .waiting⟩
  /-- acquire the free lock -/
  | acquire (c : CoalesceConfig) (i : ℕ) (h : c.pc[i]? = some .waiting)
      (hl : c.lockHolder = none) :
      CoalesceStep c ⟨c.cache, some i, c.invocations, c.pc.set i .critical⟩
  /-- second cache check (under the lock) hits: release and return -/
  | check2_hit (c : CoalesceConfig) (i : ℕ) (h : c.pc[i]? = some .critical)
      (hc : c.cache = true) :
      CoalesceStep c ⟨c.cache, none, c.invocations, c.pc.set i .done⟩
  /-- second cache check misses: start the upstream pipeline invocation -/
  | begin_compute (c : CoalesceConfig) (i : ℕ) (h : c.pc[i]? = some .critical)
      (hc : c.cache = false) :
      CoalesceStep c ⟨c.cache, c.lockHolder, c.invocations + 1, c.pc.set i .inflight⟩
  /-- pipeline invocation finishes: cache the result, release, return -/
  | end_compute (c : CoalesceConfig) (i : ℕ) (h : c.pc[i]? = some .inflight) :
      CoalesceStep c ⟨true, none, c.invocations, c.pc.set i .done⟩

/-- States reachable by interleaving the `n` callers from the initial
state. -/
def CoalesceReachable (n : ℕ) (c : CoalesceConfig) : Prop :=
  Relation.ReflTransGen CoalesceStep (coalesceInit n) c

/-- Inductive invariant of the coalescing protocol. -/
structure CoalesceInv (n : ℕ) (c : CoalesceConfig) : Prop where
  pc_length : c.pc.length = n
  /-- a caller is between lock acquisition and release exactly when it holds
  the lock (hence at most one such caller) -/
  lock_iff : ∀ i : ℕ, (c.pc[i]? = some CallerPC.critical ∨ c.pc[i]? = some CallerPC.inflight) ↔
    c.lockHolder = some i
  /-- at most one pipeline invocation ever starts -/
  invocations_le : c.invocations ≤ 1
  /-- the cache only holds a value produced by an invocation -/
  cache_invocations : c.cache = true → 1 ≤ c.invocations
  /-- an in-flight invocation has been counted -/
  inflight_counted : ∀ i : ℕ, c.pc[i]? = some CallerPC.inflight → 1 ≤ c.invocations
  /-- while the cache is still empty, the one started invocation is still in
  flight (its caller has not released the lock yet) -/
  pending_inflight : c.invocations = 1 → c.cache = false →
    ∃ i : ℕ, c.pc[i]? = some CallerPC.inflight
  /-- a caller only returns once the cache holds the value -/
  done_cache : ∀ i : ℕ, c.pc[i]? = some CallerPC.done → c.cache = true

/-! ## Theorems -/

/-- C10: in both cache backends, `set(key, value, ttl_seconds = 0)` behaves
exactly like `ttl_seconds = None`: the zero TTL is falsy, the expiry branch
is skipped, the entry is stored with no expiry, and a later `get` (at any
later time) returns the value instead of treating the entry as expired. -/
theorem c10_zero_ttl_is_no_expiry {V : Type} (store : DiskStore V)
    (rstore : RedisStore V) (now later : ℚ) (key : String) (data : V) :
    diskSet store now key data (some 0) = diskSet store now key data none
    ∧ redisSet rstore now key data (some 0) = redisSet rstore now key data none
    ∧ (diskGet (diskSet store now key data (some 0)) later key).1 = some data
    ∧ (redisGet (redisSet rstore now key data (some 0)) later key).1 = some data := by
  refine ⟨by simp [diskSet], by simp [redisSet], ?_, ?_⟩
  · simp [diskGet, diskSet, diskLookup, List.find?]
  · simp [redisGet, redisSet, redisLookup, redisExpired, List.find?]

/-- C3, counterexample: the claim says a disk-cache `get` on an entry whose
file contains invalid JSON removes that file, so that a subsequent `stats`
call no longer counts it.  In fact `json.loads` raises into the outer
`except`, which returns `None` without deleting: the file survives and
`stats` still counts it. -/
theorem c3_corrupt_disk_entry_counterexample :
    (diskGet ([("k", DiskFile.corrupt)] : DiskStore ℕ) 0 "k").1 = none
    ∧ (diskGet ([("k", DiskFile.corrupt)] : DiskStore ℕ) 0 "k").2
        = [("k", DiskFile.corrupt)]
    ∧ diskStatsTotalFiles (diskGet ([("k", DiskFile.corrupt)] : DiskStore ℕ) 0 "k").2
        ≠ 0 := by
  refine ⟨rfl, rfl, by decide⟩

/-- C3, amended: `get(key)` returns the stored value if present and not
expired and never raises on a missing key, in both backends; the disk
backend deletes **expired** entries on `get`, but a **corrupt** (unparsable)
disk entry is returned as absent with the file left in place — only
`clear_expired` removes corrupt disk files; the Redis backend does delete a
corrupt entry on `get`. -/
theorem c3_get_semantics {V : Type} (s1 s2 s3 s4 s5 : DiskStore V)
    (r1 r2 : RedisStore V) (now t₁ t₂ : ℚ) (key : String) (v : V)
    (h1 : diskLookup s1 key = none)
    (h2 : diskLookup s2 key = some (.entry v none))
    (h3 : diskLookup s3 key = some (.entry v (some t₁))) (h3v : ¬ t₁ < now)
    (h4 : diskLookup s4 key = some (.entry v (some t₂))) (h4e : t₂ < now)
    (h5 : diskLookup s5 key = some .corrupt)
    (h6 : redisLookup r1 key = none)
    (h7 : redisLookup r2 key = some (.rcorrupt, none)) :
    diskGet s1 now key = (none, s1)
    ∧ diskGet s2 now key = (some v, s2)
    ∧ diskGet s3 now key = (some v, s3)
    ∧ diskGet s4 now key = (none, diskRemove s4 key)
    ∧ diskGet s5 now key = (none, s5)
    ∧ (key, DiskFile.corrupt (V := V)) ∉ diskClearExpired s5 now
    ∧ redisGet r1 now key = (none, r1)
    ∧ redisGet r2 now key = (none, redisRemove r2 key) := by
  refine ⟨?_, ?_, ?_, ?_, ?_, ?_, ?_, ?_⟩
  · simp [diskGet, h1]
  · simp [diskGet, h2]
  · simp [diskGet, h3, h3v]
  · simp [diskGet, h4, h4e]
  · simp [diskGet, h5]
  · simp [diskClearExpired]
  · simp [redisGet, h6]
  · simp [redisGet, h7, redisExpired]

/-- C3 amended, witness. -/
theorem c3_get_semantics_witness :
    diskLookup ([] : DiskStore ℕ) "k" = none
    ∧ diskLookup [("k", DiskFile.entry 7 none)] "k" = some (.entry 7 none)
    ∧ diskLookup [("k", DiskFile.entry 7 (some 20))] "k" = some (.entry 7 (some 20))
    ∧ ¬ (20 : ℚ) < 10
    ∧ diskLookup [("k", DiskFile.entry 7 (some 3))] "k" = some (.entry 7 (some 3))
    ∧ (3 : ℚ) < 10
    ∧ diskLookup [("k", DiskFile.corrupt)] "k" = some (DiskFile.corrupt (V := ℕ))
    ∧ redisLookup ([] : RedisStore ℕ) "k" = none
    ∧ redisLookup [("k", (RedisPayload.rcorrupt, none))] "k"
        = some (RedisPayload.rcorrupt (V := ℕ), none)
    ∧ diskGet [("k", DiskFile.corrupt)] (10 : ℚ) "k"
        = (none, ([("k", DiskFile.corrupt)] : DiskStore ℕ)) := by
  refine ⟨by decide, by decide, by decide, by norm_num, by decide, by norm_num,
    by decide, by decide, by decide, ?_⟩
  exact (c3_get_semantics ([] : DiskStore ℕ) [("k", DiskFile.entry 7 none)]
    [("k", DiskFile.entry 7 (some 20))] [("k", DiskFile.entry 7 (some 3))]
    [("k", DiskFile.corrupt)] ([] : RedisStore ℕ)
    [("k", (RedisPayload.rcorrupt, none))] 10 20 3 "k" 7
    (by decide) (by decide) (by decide) (by norm_num) (by decide) (by norm_num)
    (by decide) (by decide) (by decide)).2.2.2.2.1

/-- C7: in both chunked strategies, with `n ≥ 1` chunks, the per-chunk
trajectory cap equals `max(1, min(per-chunk-cap, total-target // n))`
(per-chunk-cap 10 with total target 30 for the concurrent-chunked strategy
and 40 for the semantic-chunked strategy), is at least 1, never exceeds 10,
and is non-increasing in the chunk count. -/
theorem c7_trajectory_caps (n m : ℕ) (hn : 1 ≤ n) (hm : n ≤ m) :
    mode3MaxTrajectoriesPerParagraph n = max 1 (min 10 (30 / n))
    ∧ calculate_max_trajectories n = max 1 (min 10 (40 / n))
    ∧ 1 ≤ mode3MaxTrajectoriesPerParagraph n
    ∧ mode3MaxTrajectoriesPerParagraph n ≤ 10
    ∧ 1 ≤ calculate_max_trajectories n
    ∧ calculate_max_trajectories n ≤ 10
    ∧ mode3MaxTrajectoriesPerParagraph m ≤ mode3MaxTrajectoriesPerParagraph n
    ∧ calculate_max_trajectories m ≤ calculate_max_trajectories n := by
  have hform : ∀ k : ℕ, 1 ≤ k → calculate_max_trajectories k = max 1 (min 10 (40 / k)) := by
    intro k hk
    rcases Nat.lt_or_ge k 2 with hk2 | hk2
    · interval_cases k
      · simp [calculate_max_trajectories]
    · rw [calculate_max_trajectories, if_neg (by omega)]
  have h30 : 30 / m ≤ 30 / n := Nat.div_le_div_left hm hn
  have h40 : 40 / m ≤ 40 / n := Nat.div_le_div_left hm hn
  refine ⟨rfl, hform n hn, ?_, ?_, ?_, ?_, ?_, ?_⟩
  · simp [mode3MaxTrajectoriesPerParagraph]
  · simp only [mode3MaxTrajectoriesPerParagraph]; omega
  · rw [hform n hn]; omega
  · rw [hform n hn]; omega
  · simp only [mode3MaxTrajectoriesPerParagraph]; omega
  · rw [hform n hn, hform m (le_trans hn hm)]; omega

/-- C7, witness. -/
theorem c7_trajectory_caps_witness :
    (1 ≤ 4 ∧ 4 ≤ 7)
    ∧ mode3MaxTrajectoriesPerParagraph 4 = max 1 (min 10 (30 / 4))
    ∧ calculate_max_trajectories 7 ≤ calculate_max_trajectories 4 := by
  refine ⟨⟨by decide, by decide⟩, ?_, ?_⟩
  · exact (c7_trajectory_caps 4 7 (by decide) (by decide)).1
  · exact (c7_trajectory_caps 4 7 (by decide) (by decide)).2.2.2.2.2.2.2

/-- The merge step never turns a non-empty paragraph list into an empty
one. -/
theorem merge_short_paragraphs_ne_nil :
    ∀ ps : List Str, ps ≠ [] → merge_short_paragraphs ps ≠ []
  | [], h => absurd rfl h
  | [p], _ => by simp [merge_short_paragraphs]
  | p :: q :: rest, _ => by
    rw [merge_short_paragraphs]
    split <;> simp

/-- `joinParagraphs` on a cons with a non-empty tail. -/
theorem joinParagraphs_cons (x : Str) (l : List Str) (h : l ≠ []) :
    joinParagraphs (x :: l) = x ++ paragraphSep ++ joinParagraphs l := by
  cases l with
  | nil => exact absurd rfl h
  | cons y ys => rfl

/-- C9: the short-paragraph merge loses no text and reorders nothing —
joining its output with the `"\n\n"` separator gives back exactly the join
of its input. -/
theorem c9_merge_preserves_text :
    ∀ paragraphs : List Str,
      joinParagraphs (merge_short_paragraphs paragraphs) = joinParagraphs paragraphs
  | [] => rfl
  | [p] => rfl
  | p :: q :: rest => by
    rw [merge_short_paragraphs]
    by_cases h : p.length < MIN_PARAGRAPH_LENGTH
    · rw [if_pos h]
      cases rest with
      | nil => simp [joinParagraphs, merge_short_paragraphs]
      | cons c rest' =>
        rw [joinParagraphs_cons _ _
              (merge_short_paragraphs_ne_nil (c :: rest') (by simp)),
            c9_merge_preserves_text (c :: rest'),
            joinParagraphs_cons p (q :: c :: rest') (by simp),
            joinParagraphs_cons q (c :: rest') (by simp)]
        simp [List.append_assoc]
    · rw [if_neg h,
          joinParagraphs_cons p (merge_short_paragraphs (q :: rest))
            (merge_short_paragraphs_ne_nil (q :: rest) (by simp)),
          c9_merge_preserves_text (q :: rest),
          joinParagraphs_cons p (q :: rest) (by simp)]

/-- C8, counterexample: the claim says every chunk output by the merge step
is at least `MIN_PARAGRAPH_LENGTH = 200` characters long.  A single short
paragraph is returned unchanged (the last paragraph is never merged
forward), so the output can contain arbitrarily short chunks. -/
theorem c8_short_chunk_counterexample :
    merge_short_paragraphs [['a']] = [['a']]
    ∧ ¬ (∀ p ∈ merge_short_paragraphs [['a']], MIN_PARAGRAPH_LENGTH ≤ p.length) := by
  refine ⟨rfl, ?_⟩
  intro h
  have := h ['a'] (by rw [merge_short_paragraphs]; exact List.mem_singleton.mpr rfl)
  simp [MIN_PARAGRAPH_LENGTH] at this

/-- C8, amended: every paragraph shorter than 200 characters that is not the
last is merged into the following paragraph; a chunk of the output can still
be shorter than 200 characters, but only if it is the last input paragraph
standing alone or the concatenation (with the `"\n\n"` separator) of a short
paragraph with its immediate successor. -/
theorem c8_merge_short_paragraphs :
    ∀ paragraphs : List Str, ∀ p : Str, p ∈ merge_short_paragraphs paragraphs →
      MIN_PARAGRAPH_LENGTH ≤ p.length
      ∨ paragraphs.getLast? = some p
      ∨ ∃ (a b : Str) (pre post : List Str),
          paragraphs = pre ++ a :: b :: post
          ∧ a.length < MIN_PARAGRAPH_LENGTH
          ∧ p = a ++ paragraphSep ++ b
  | [], p, h => by simp [merge_short_paragraphs] at h
  | [q], p, h => by
    rw [merge_short_paragraphs] at h
    right; left
    simp only [List.mem_singleton] at h
    simp [h]
  | a :: b :: rest, p, h => by
    rw [merge_short_paragraphs] at h
    by_cases hlen : a.length < MIN_PARAGRAPH_LENGTH
    · rw [if_pos hlen] at h
      rcases List.mem_cons.mp h with hp | hp
      · exact Or.inr (Or.inr ⟨a, b, [], rest, by simp, hlen, hp⟩)
      · have hrest : rest ≠ [] := by
          intro hr; rw [hr] at hp; simp [merge_short_paragraphs] at hp
        rcases c8_merge_short_paragraphs rest p hp with h1 | h1 | h1
        · exact Or.inl h1
        · right; left
          obtain ⟨c, rest', rfl⟩ := List.exists_cons_of_ne_nil hrest
          rw [List.getLast?_cons_cons, List.getLast?_cons_cons]
          exact h1
        · obtain ⟨x, y, pre, post, hsplit, hx, hpxy⟩ := h1
          exact Or.inr (Or.inr ⟨x, y, a :: b :: pre, post, by simp [hsplit], hx, hpxy⟩)
    · rw [if_neg hlen] at h
      rcases List.mem_cons.mp h with hp | hp
      · subst hp
        exact Or.inl (by omega)
      · rcases c8_merge_short_paragraphs (b :: rest) p hp with h1 | h1 | h1
        · exact Or.inl h1
        · right; left
          rw [List.getLast?_cons_cons]
          exact h1
        · obtain ⟨x, y, pre, post, hsplit, hx, hpxy⟩ := h1
          exact Or.inr (Or.inr ⟨x, y, a :: pre, post, by simp [hsplit], hx, hpxy⟩)

/-- C8 amended, witness. -/
theorem c8_merge_short_paragraphs_witness :
    (['a'] ∈ merge_short_paragraphs [['a']])
    ∧ (MIN_PARAGRAPH_LENGTH ≤ (['a'] : Str).length
       ∨ ([['a']] : List Str).getLast? = some ['a']
       ∨ ∃ (a b : Str) (pre post : List Str),
           [['a']] = pre ++ a :: b :: post
           ∧ a.length < MIN_PARAGRAPH_LENGTH
           ∧ ['a'] = a ++ paragraphSep ++ b) := by
  refine ⟨by rw [merge_short_paragraphs]; exact List.mem_singleton.mpr rfl, ?_⟩
  exact c8_merge_short_paragraphs [['a']] ['a']
    (by rw [merge_short_paragraphs]; exact List.mem_singleton.mpr rfl)

/-- A rate-limit check whose prune keeps every recorded timestamp and whose
pruned count is below the limit: the request is admitted and `now` is
appended. -/
theorem is_rate_limited_admit (N : ℕ) (W : ℚ) (st : List ℚ) (now : ℚ)
    (hkeep : st.filter (fun x => now - W < x) = st) (hlt : st.length < N) :
    is_rate_limited N W st now
      = ⟨false, st ++ [now], st.length + 1, max 0 ((N : ℤ) - st.length) - 1⟩ := by
  simp only [is_rate_limited, hkeep]
  rw [if_neg (by omega)]

/-- A rate-limit check whose prune keeps every recorded timestamp and whose
pruned count reaches the limit: the request is rejected and nothing is
appended. -/
theorem is_rate_limited_reject (N : ℕ) (W : ℚ) (st : List ℚ) (now : ℚ)
    (hkeep : st.filter (fun x => now - W < x) = st) (hge : N ≤ st.length) :
    is_rate_limited N W st now
      = ⟨true, st, st.length, max 0 ((N : ℤ) - st.length)⟩ := by
  simp only [is_rate_limited, hkeep]
  rw [if_pos (by omega)]

/-- Requests that all fall within less than one window of each other and of
the already-recorded timestamps are all admitted (none is ever pruned or
rejected) as long as the total count stays within the limit. -/
theorem processRequests_all_admitted (N : ℕ) (W : ℚ) :
    ∀ (ts st : List ℚ),
      st.length + ts.length ≤ N →
      (∀ b ∈ ts, ∀ a ∈ st, b - a < W) →
      (∀ b ∈ ts, ∀ a ∈ ts, b - a < W) →
      processRequests N W st ts = (List.replicate ts.length false, st ++ ts)
  | [], st, _, _, _ => by simp [processRequests]
  | t :: rest, st, hlen, hspan1, hspan2 => by
    have hkeep : st.filter (fun x => t - W < x) = st := by
      apply List.filter_eq_self.mpr
      intro a ha
      have := hspan1 t (by simp) a ha
      simpa using by linarith
    have hlt : st.length < N := by
      simp only [List.length_cons] at hlen; omega
    have hrec := processRequests_all_admitted N W rest (st ++ [t])
      (by simp only [List.length_append, List.length_cons, List.length_nil] at hlen ⊢; omega)
      (by
        intro b hb a ha
        rcases List.mem_append.mp ha with ha' | ha'
        · exact hspan1 b (List.mem_cons_of_mem _ hb) a ha'
        · rw [List.mem_singleton.mp ha']
          exact hspan2 b (List.mem_cons_of_mem _ hb) t (by simp))
      (by
        intro b hb a ha
        exact hspan2 b (List.mem_cons_of_mem _ hb) a (List.mem_cons_of_mem _ ha))
    rw [processRequests, is_rate_limited_admit N W st t hkeep hlt, hrec]
    simp [List.replicate_succ, List.append_assoc]

/-- C5: the sliding-window rate limiter.  One check prunes the client's
timestamps to those strictly newer than `now - W`, rejects without recording
when the pruned count has reached `N`, and otherwise records `now` and
admits.  Consequently: `N` requests within a span shorter than `W` are all
admitted, a further request still within `W` of all of them is rejected
without being recorded, and once more than `W` has passed since every
recorded timestamp a new request is admitted again. -/
theorem c5_rate_limiter (N : ℕ) (W : ℚ) (st : List ℚ) (now : ℚ)
    (ts : List ℚ) (tNext : ℚ) (s2 : List ℚ) (now2 : ℚ)
    (hN : 0 < N) (hlen : ts.length = N)
    (hspan : ∀ b ∈ ts, ∀ a ∈ ts, b - a < W)
    (hnext : ∀ a ∈ ts, tNext - a < W)
    (hwait : ∀ a ∈ s2, W < now2 - a) :
    ((is_rate_limited N W st now).isLimited
        ↔ N ≤ (st.filter (fun x => now - W < x)).length)
    ∧ (is_rate_limited N W st now).newTimestamps
        = st.filter (fun x => now - W < x)
          ++ (if N ≤ (st.filter (fun x => now - W < x)).length then [] else [now])
    ∧ (processRequests N W [] ts).1 = List.replicate N false
    ∧ (processRequests N W [] ts).2 = ts
    ∧ (is_rate_limited N W ts tNext).isLimited = true
    ∧ (is_rate_limited N W ts tNext).newTimestamps = ts
    ∧ (is_rate_limited N W s2 now2).isLimited = false
    ∧ (is_rate_limited N W s2 now2).newTimestamps = [now2] := by
  have hkeepNext : ts.filter (fun x => tNext - W < x) = ts := by
    apply List.filter_eq_self.mpr
    intro a ha
    have := hnext a ha
    simpa using by linarith
  have hdropAll : s2.filter (fun x => now2 - W < x) = [] := by
    rw [List.filter_eq_nil_iff]
    intro a ha
    have := hwait a ha
    simpa using by linarith
  have hrun := processRequests_all_admitted N W ts []
    (by simpa using hlen.le) (by intro b _ a ha; simp at ha) hspan
  refine ⟨?_, ?_, ?_, ?_, ?_, ?_, ?_, ?_⟩
  · simp only [is_rate_limited]
    split <;> simp_all
  · simp only [is_rate_limited]
    split <;> simp
  · rw [hrun]; simp [hlen]
  · rw [hrun]; simp
  · rw [is_rate_limited_reject N W ts tNext hkeepNext (by omega)]
  · rw [is_rate_limited_reject N W ts tNext hkeepNext (by omega)]
  · simp only [is_rate_limited, hdropAll]
    rw [if_neg (by simp only [List.length_nil]; omega)]
  · simp only [is_rate_limited, hdropAll]
    rw [if_neg (by simp only [List.length_nil]; omega)]
    simp

/-- C5, witness. -/
theorem c5_rate_limiter_witness :
    ((0 : ℕ) < 2 ∧ ([(0 : ℚ), 1] : List ℚ).length = 2)
    ∧ (processRequests 2 (60 : ℚ) [] [0, 1]).1 = List.replicate 2 false
    ∧ (is_rate_limited 2 (60 : ℚ) [(0 : ℚ), 1] 2).isLimited = true
    ∧ (is_rate_limited 2 (60 : ℚ) [(5 : ℚ)] 100).isLimited = false := by
  have h := c5_rate_limiter 2 60 [10] 30 [0, 1] 2 [5] 100
    (by decide) (by decide)
    (by norm_num [List.forall_mem_cons]) (by norm_num [List.forall_mem_cons])
    (by norm_num [List.forall_mem_cons])
  exact ⟨⟨by decide, by decide⟩, h.2.2.1, h.2.2.2.2.1, h.2.2.2.2.2.2.1⟩

/-- The deduplication loop only ever drops elements: its output is a
sublist (in order) of its input. -/
theorem deduplicate_go_sublist :
    ∀ (seen : List (String × String)) (data : List TrajItem),
      (deduplicate_go seen data).Sublist data
  | _, [] => by simp [deduplicate_go]
  | seen, item :: rest => by
    cases item with
    | nondict p =>
      rw [deduplicate_go]
      simp only [itemKey]
      exact (deduplicate_go_sublist seen rest).cons _
    | dict t l p =>
      rw [deduplicate_go]
      simp only [itemKey]
      by_cases h : (t, l) ∈ seen
      · rw [if_pos h]
        exact (deduplicate_go_sublist seen rest).cons _
      · rw [if_neg h]
        exact (deduplicate_go_sublist ((t, l) :: seen) rest).cons₂ _

/-- The deduplication loop never emits an item whose key is already in
`seen`. -/
theorem deduplicate_go_key_not_mem :
    ∀ (seen : List (String × String)) (data : List TrajItem)
      (k : String × String), k ∈ seen →
      ∀ x ∈ deduplicate_go seen data, itemKey x ≠ some k
  | _, [], _, _ => by simp [deduplicate_go]
  | seen, item :: rest, k, hk => by
    cases item with
    | nondict p =>
      rw [deduplicate_go]
      simp only [itemKey]
      exact deduplicate_go_key_not_mem seen rest k hk
    | dict t l p =>
      rw [deduplicate_go]
      simp only [itemKey]
      by_cases h : (t, l) ∈ seen
      · rw [if_pos h]
        exact deduplicate_go_key_not_mem seen rest k hk
      · rw [if_neg h]
        intro x hx
        rcases List.mem_cons.mp hx with hx' | hx'
        · subst hx'
          simp only [itemKey, ne_eq, Option.some_inj]
          intro he
          exact h (he ▸ hk)
        · exact deduplicate_go_key_not_mem ((t, l) :: seen) rest k
            (List.mem_cons_of_mem _ hk) x hx'

/-- For a key not yet seen, the first item with that key in the output of
the deduplication loop is exactly the first item with that key in the
input. -/
theorem deduplicate_go_find? :
    ∀ (seen : List (String × String)) (data : List TrajItem)
      (k : String × String), k ∉ seen →
      (deduplicate_go seen data).find? (fun x => itemKey x = some k)
        = data.find? (fun x => itemKey x = some k)
  | _, [], _, _ => by simp [deduplicate_go]
  | seen, item :: rest, k, hk => by
    cases item with
    | nondict p =>
      rw [deduplicate_go]
      simp only [itemKey]
      rw [List.find?_cons_of_neg _ (by simp [itemKey])]
      exact deduplicate_go_find? seen rest k hk
    | dict t l p =>
      rw [deduplicate_go]
      simp only [itemKey]
      by_cases h : (t, l) ∈ seen
      · rw [if_pos h]
        rw [List.find?_cons_of_neg _ (by
          simp only [itemKey, decide_eq_true_eq, Option.some_inj]
          intro he
          exact hk (he ▸ h))]
        exact deduplicate_go_find? seen rest k hk
      · rw [if_neg h]
        by_cases hkey : (t, l) = k
        · subst hkey
          rw [List.find?_cons_of_pos _ (by simp [itemKey]),
            List.find?_cons_of_pos _ (by simp [itemKey])]
        · rw [List.find?_cons_of_neg _ (by simp [itemKey, hkey]),
            List.find?_cons_of_neg _ (by simp [itemKey, hkey])]
          exact deduplicate_go_find? ((t, l) :: seen) rest k
            (by simp [hk, Ne.symm hkey])

/-- The deduplication loop's output has pairwise distinct keys. -/
theorem deduplicate_go_pairwise :
    ∀ (seen : List (String × String)) (data : List TrajItem),
      (deduplicate_go seen data).Pairwise (fun a b => itemKey a ≠ itemKey b)
  | _, [] => by simp [deduplicate_go]
  | seen, item :: rest => by
    cases item with
    | nondict p =>
      rw [deduplicate_go]
      simp only [itemKey]
      exact deduplicate_go_pairwise seen rest
    | dict t l p =>
      rw [deduplicate_go]
      simp only [itemKey]
      by_cases h : (t, l) ∈ seen
      · rw [if_pos h]
        exact deduplicate_go_pairwise seen rest
      · rw [if_neg h]
        refine List.Pairwise.cons ?_ (deduplicate_go_pairwise ((t, l) :: seen) rest)
        intro y hy
        have := deduplicate_go_key_not_mem ((t, l) :: seen) rest (t, l)
          (by simp) y hy
        simp only [itemKey]
        exact fun he => this he.symm

/-- Every element the deduplication loop emits is a dict. -/
theorem deduplicate_go_all_dict :
    ∀ (seen : List (String × String)) (data : List TrajItem),
      ∀ x ∈ deduplicate_go seen data, itemKey x ≠ none
  | _, [] => by simp [deduplicate_go]
  | seen, item :: rest => by
    cases item with
    | nondict p =>
      rw [deduplicate_go]
      simp only [itemKey]
      exact deduplicate_go_all_dict seen rest
    | dict t l p =>
      rw [deduplicate_go]
      simp only [itemKey]
      by_cases h : (t, l) ∈ seen
      · rw [if_pos h]
        exact deduplicate_go_all_dict seen rest
      · rw [if_neg h]
        intro x hx
        rcases List.mem_cons.mp hx with hx' | hx'
        · subst hx'
          simp [itemKey]
        · exact deduplicate_go_all_dict ((t, l) :: seen) rest x hx'

/-- C4, amended: `_deduplicate_data` with key `(time, location)` keeps the
first occurrence of each key, preserves first-seen order, drops non-dict
items, and its output has exactly one item per distinct key (the example
from the claim included); it is applied by `_validate_result`, i.e. in the
LangChain (mode-4) pipeline only — not regardless of strategy. -/
theorem c4_deduplication (data : List TrajItem) (r : TrajData) :
    (deduplicate_data data).Sublist data
    ∧ (deduplicate_data data).Pairwise (fun a b => itemKey a ≠ itemKey b)
    ∧ (∀ x ∈ deduplicate_data data, itemKey x ≠ none)
    ∧ (∀ k : String × String,
        (deduplicate_data data).find? (fun x => itemKey x = some k)
          = data.find? (fun x => itemKey x = some k))
    ∧ validate_result r = ⟨r.person_name, deduplicate_data r.trajectory⟩
    ∧ deduplicate_data
        [TrajItem.dict "1990" "A" 0, TrajItem.dict "1990" "A" 1, TrajItem.dict "1991" "B" 2]
        = [TrajItem.dict "1990" "A" 0, TrajItem.dict "1991" "B" 2] := by
  refine ⟨deduplicate_go_sublist [] data, deduplicate_go_pairwise [] data,
    deduplicate_go_all_dict [] data,
    fun k => deduplicate_go_find? [] data k (by simp), rfl, by decide⟩

/-- C4, counterexample: the claim says the final result is deduplicated by
`(time, location)` regardless of which strategy produced it.  The
concurrent-chunked strategy (`_parse_mode_3`) merges the chunk trajectories
by plain concatenation and returns them without any deduplication: two
chunks reporting the same `(time, location)` point leave it twice in the
final result. -/
theorem c4_mode3_not_deduplicated_counterexample :
    parse_mode_3_core
        [Except.ok (Mode3Response.parsed "X" (some [TrajItem.dict "1990" "A" 0])),
         Except.ok (Mode3Response.parsed "" (some [TrajItem.dict "1990" "A" 0]))]
      = Except.ok ⟨"X", [TrajItem.dict "1990" "A" 0, TrajItem.dict "1990" "A" 0]⟩
    ∧ deduplicate_data [TrajItem.dict "1990" "A" 0, TrajItem.dict "1990" "A" 0]
        ≠ [TrajItem.dict "1990" "A" 0, TrajItem.dict "1990" "A" 0] := by
  exact ⟨rfl, by decide⟩

/-- If any per-request outcome in the batch is an exception, `chat_batch`
raises. -/
theorem chat_batch_error_of_mem {α : Type} :
    ∀ (outcomes : List (Except String α)) (e : String),
      Except.error e ∈ outcomes → ∃ e', chat_batch outcomes = Except.error e'
  | [], e, h => by simp at h
  | .error e0 :: _, _, _ => ⟨e0, by rw [chat_batch]⟩
  | .ok a :: rest, e, h => by
    have hmem : Except.error e ∈ rest := by
      rcases List.mem_cons.mp h with h' | h'
      · simp at h'
      · exact h'
    obtain ⟨e', he'⟩ := chat_batch_error_of_mem rest e hmem
    exact ⟨e', by rw [chat_batch, he']⟩

/-- The mode-3 merge loop splits over list concatenation. -/
theorem mode3MergeLoop_append :
    ∀ (l1 : List Mode3Response) (nm : String) (tr : List TrajItem)
      (l2 : List Mode3Response),
      mode3MergeLoop nm tr (l1 ++ l2)
        = mode3MergeLoop (mode3MergeLoop nm tr l1).1 (mode3MergeLoop nm tr l1).2 l2
  | [], nm, tr, l2 => by simp [mode3MergeLoop]
  | .empty :: rest, nm, tr, l2 => by
    rw [List.cons_append, mode3MergeLoop]
    rw [mode3MergeLoop_append rest nm tr l2, mode3MergeLoop]
  | .unparsable :: rest, nm, tr, l2 => by
    rw [List.cons_append, mode3MergeLoop]
    rw [mode3MergeLoop_append rest nm tr l2, mode3MergeLoop]
  | .parsed nm' tr' :: rest, nm, tr, l2 => by
    rw [List.cons_append, mode3MergeLoop]
    rw [mode3MergeLoop_append rest, mode3MergeLoop]

/-- C2, counterexample: the claim says that in the concurrent-chunked
strategy (`_parse_mode_3`), one successful chunk plus one raising chunk
still yields a merged trajectory from the successful chunks.  In fact
`chat_batch` re-raises upon finding any exception among the gathered
results, so the whole strategy fails. -/
theorem c2_mode3_abort_counterexample :
    parse_mode_3_core
        [Except.ok (Mode3Response.parsed "X" (some [TrajItem.dict "1900" "Paris" 0])),
         Except.error "chunk 2 failed"]
      = Except.error "chunk 2 failed"
    ∧ ∀ t : TrajData,
        parse_mode_3_core
            [Except.ok (Mode3Response.parsed "X" (some [TrajItem.dict "1900" "Paris" 0])),
             Except.error "chunk 2 failed"]
          ≠ Except.ok t := by
  refine ⟨rfl, ?_⟩
  intro t h
  rw [show parse_mode_3_core
        [Except.ok (Mode3Response.parsed "X" (some [TrajItem.dict "1900" "Paris" 0])),
         Except.error "chunk 2 failed"]
      = Except.error "chunk 2 failed" from rfl] at h
  cases h

/-- C2, amended: per-chunk failure isolation holds in the semantic-chunked
(LangChain) strategy: a raising chunk contributes nothing to the map
results, the map node never errors, and when every chunk fails the pipeline
yields the empty result (rather than raising).  In the concurrent-chunked
strategy, however, a single raising chunk call makes `chat_batch` — and
hence `_parse_mode_3` — fail as a whole; what mode 3 isolates during
merging are chunk *responses* that are empty or fail JSON parsing. -/
theorem c2_failure_isolation
    (xs ys : List (Except String String)) (e0 : String)
    (fails : List String)
    (red : Except String TrajData)
    (rs1 rs2 : List Mode3Response)
    (os : List (Except String Mode3Response)) (e : String)
    (he : Except.error e ∈ os) :
    map_documents_node (xs ++ Except.error e0 :: ys) = map_documents_node (xs ++ ys)
    ∧ (map_documents_node (xs ++ Except.error e0 :: ys)).2 = none
    ∧ map_documents_node (fails.map Except.error) = ([], none)
    ∧ reduce_results_node [] red = (emptyTrajData, none)
    ∧ (∃ e', parse_mode_3_core os = Except.error e')
    ∧ merge_responses (rs1 ++ Mode3Response.unparsable :: rs2)
        = merge_responses (rs1 ++ rs2)
    ∧ merge_responses (rs1 ++ Mode3Response.empty :: rs2)
        = merge_responses (rs1 ++ rs2) := by
  refine ⟨?_, rfl, ?_, rfl, ?_, ?_, ?_⟩
  · simp [map_documents_node, List.filterMap_append]
  · simp [map_documents_node, List.filterMap_map]
  · obtain ⟨e', he'⟩ := chat_batch_error_of_mem os e he
    exact ⟨e', by simp [parse_mode_3_core, he']⟩
  · simp only [merge_responses, mode3MergeLoop_append rs1, mode3MergeLoop]
  · simp only [merge_responses, mode3MergeLoop_append rs1, mode3MergeLoop]

/-- C2 amended, witness. -/
theorem c2_failure_isolation_witness :
    (Except.error "boom"
      ∈ ([Except.ok (Mode3Response.parsed "X" (some [TrajItem.dict "1900" "Paris" 0])),
          Except.error "boom"] : List (Except String Mode3Response)))
    ∧ ∃ e', parse_mode_3_core
        [Except.ok (Mode3Response.parsed "X" (some [TrajItem.dict "1900" "Paris" 0])),
         Except.error "boom"]
      = Except.error e' := by
  refine ⟨by simp, ?_⟩
  exact (c2_failure_isolation [] [] "e0" [] (Except.ok emptyTrajData) [] []
    [Except.ok (Mode3Response.parsed "X" (some [TrajItem.dict "1900" "Paris" 0])),
     Except.error "boom"] "boom" (by simp)).2.2.2.2.1

/-- C6: whenever the semantic-chunked-with-reduce strategy fails — in
particular whenever its reduce call raises — `_parse_mode_4` returns exactly
what running the concurrent-chunked strategy directly on the same input
(with the same model collaborator outcomes) returns. -/
theorem c6_reduce_failure_falls_back_to_mode3 (env : Mode4Env) (text : Str)
    (e : String) (hred : env.reduceOutcome = Except.error e) :
    parse_mode_4 env text = parse_mode_3_core env.mode3Outcomes := by
  rw [parse_mode_4]
  by_cases hp : env.processorInitialized
  · rw [if_neg (by simp [hp])]
    rw [process_biography]
    by_cases htext : text.all (·.isWhitespace)
    · rw [if_pos htext]
    · rw [if_neg htext]
      simp only [process_documents, reduce_results_node, hred]
      by_cases hdocs : env.docs.isEmpty
      · simp [hdocs, validate_result, emptyTrajData, deduplicate_data, deduplicate_go]
      · by_cases hmap : (map_documents_node env.mapOutcomes).1.isEmpty
        · simp [hdocs, hmap, validate_result, emptyTrajData, deduplicate_data,
            deduplicate_go]
        · simp [hdocs, hmap]
  · rw [if_pos hp]

/-- C6, witness. -/
theorem c6_reduce_failure_falls_back_to_mode3_witness :
    (Mode4Env.mk true ["doc one"] [Except.ok "mapped"] (Except.error "reduce failed")
        [Except.ok (Mode3Response.parsed "P" (some [TrajItem.dict "1900" "Paris" 0]))]).reduceOutcome
      = Except.error "reduce failed"
    ∧ parse_mode_4
        (Mode4Env.mk true ["doc one"] [Except.ok "mapped"] (Except.error "reduce failed")
          [Except.ok (Mode3Response.parsed "P" (some [TrajItem.dict "1900" "Paris" 0]))])
        ['x']
      = parse_mode_3_core
          (Mode4Env.mk true ["doc one"] [Except.ok "mapped"] (Except.error "reduce failed")
            [Except.ok (Mode3Response.parsed "P" (some [TrajItem.dict "1900" "Paris" 0]))]).mode3Outcomes := by
  refine ⟨rfl, ?_⟩
  exact c6_reduce_failure_falls_back_to_mode3
    (Mode4Env.mk true ["doc one"] [Except.ok "mapped"] (Except.error "reduce failed")
      [Except.ok (Mode3Response.parsed "P" (some [TrajItem.dict "1900" "Paris" 0]))])
    ['x'] "reduce failed" rfl

/-- An index with a defined program counter is within bounds. -/
theorem pc_lt_of_getElem? {l : List CallerPC} {i : ℕ} {v : CallerPC}
    (h : l[i]? = some v) : i < l.length := by
  rcases List.getElem?_eq_some.mp h with ⟨hlt, _⟩
  exact hlt

/-- Reading an updated program-counter list. -/
theorem set_getElem? (l : List CallerPC) (i j : ℕ) (v : CallerPC)
    (hi : i < l.length) :
    (l.set i v)[j]? = if i = j then some v else l[j]? := by
  by_cases hij : i = j
  · subst hij
    simp [List.getElem?_set_self hi]
  · simp [List.getElem?_set_ne hij, hij]

/-- The coalescing invariant holds initially. -/
theorem coalesceInv_init (n : ℕ) : CoalesceInv n (coalesceInit n) := by
  refine ⟨by simp [coalesceInit], ?_, by simp [coalesceInit], ?_, ?_, ?_, ?_⟩
  · intro i
    constructor
    · intro hmem
      rcases hmem with h | h <;>
        (simp only [coalesceInit, List.getElem?_replicate] at h; split at h <;> simp_all)
    · intro hl
      simp [coalesceInit] at hl
  · intro hcc
    simp [coalesceInit] at hcc
  · intro i hi
    simp only [coalesceInit, List.getElem?_replicate] at hi
    split at hi <;> simp_all
  · intro h1
    simp [coalesceInit] at h1
  · intro i hi
    simp only [coalesceInit, List.getElem?_replicate] at hi
    split at hi <;> simp_all

/-- Every step of the coalescing protocol preserves the invariant. -/
theorem coalesceInv_step {n : ℕ} {c c' : CoalesceConfig}
    (inv : CoalesceInv n c) (st : CoalesceStep c c') : CoalesceInv n c' := by
  cases st with
  | check1_hit i h hc =>
    have hi := pc_lt_of_getElem? h
    refine ⟨by simp [inv.pc_length], ?_, inv.invocations_le, inv.cache_invocations,
      ?_, ?_, ?_⟩
    · intro j
      simp only [set_getElem? _ _ _ _ hi]
      by_cases hij : i = j
      · subst hij
        simp only [if_pos rfl]
        constructor
        · rintro (h' | h') <;> cases h'
        · intro hl
          have := (inv.lock_iff i).mpr hl
          rw [h] at this
          rcases this with h' | h' <;> cases h'
      · rw [if_neg hij]
        exact inv.lock_iff j
    · intro j hj
      rw [set_getElem? _ _ _ _ hi] at hj
      by_cases hij : i = j
      · rw [if_pos hij] at hj; cases hj
      · rw [if_neg hij] at hj; exact inv.inflight_counted j hj
    · intro h1 h0
      rw [hc] at h0; cases h0
    · intro j _
      exact hc
  | check1_miss i h hc =>
    have hi := pc_lt_of_getElem? h
    refine ⟨by simp [inv.pc_length], ?_, inv.invocations_le, inv.cache_invocations,
      ?_, ?_, ?_⟩
    · intro j
      simp only [set_getElem? _ _ _ _ hi]
      by_cases hij : i = j
      · subst hij
        simp only [if_pos rfl]
        constructor
        · rintro (h' | h') <;> cases h'
        · intro hl
          have := (inv.lock_iff i).mpr hl
          rw [h] at this
          rcases this with h' | h' <;> cases h'
      · rw [if_neg hij]
        exact inv.lock_iff j
    · intro j hj
      rw [set_getElem? _ _ _ _ hi] at hj
      by_cases hij : i = j
      · rw [if_pos hij] at hj; cases hj
      · rw [if_neg hij] at hj; exact inv.inflight_counted j hj
    · intro h1 h0
      obtain ⟨j, hj⟩ := inv.pending_inflight h1 hc
      have hij : i ≠ j := by
        intro he
        rw [← he, h] at hj
        cases hj
      exact ⟨j, by rw [set_getElem? _ _ _ _ hi, if_neg hij]; exact hj⟩
    · intro j hj
      rw [set_getElem? _ _ _ _ hi] at hj
      by_cases hij : i = j
      · rw [if_pos hij] at hj; cases hj
      · rw [if_neg hij] at hj; exact inv.done_cache j hj
  | acquire i h hl =>
    have hi := pc_lt_of_getElem? h
    refine ⟨by simp [inv.pc_length], ?_, inv.invocations_le, inv.cache_invocations,
      ?_, ?_, ?_⟩
    · intro j
      rw [set_getElem? _ _ _ _ hi]
      by_cases hij : i = j
      · subst hij
        simp
      · rw [if_neg hij]
        constructor
        · intro hmem
          have := (inv.lock_iff j).mp hmem
          rw [hl] at this
          cases this
        · intro he
          exact absurd (Option.some_inj.mp he) hij
    · intro j hj
      rw [set_getElem? _ _ _ _ hi] at hj
      by_cases hij : i = j
      · rw [if_pos hij] at hj; cases hj
      · rw [if_neg hij] at hj; exact inv.inflight_counted j hj
    · intro h1 h0
      obtain ⟨j, hj⟩ := inv.pending_inflight h1 h0
      have hij : i ≠ j := by
        intro he
        rw [← he, h] at hj
        cases hj
      exact ⟨j, by rw [set_getElem? _ _ _ _ hi, if_neg hij]; exact hj⟩
    · intro j hj
      rw [set_getElem? _ _ _ _ hi] at hj
      by_cases hij : i = j
      · rw [if_pos hij] at hj; cases hj
      · rw [if_neg hij] at hj; exact inv.done_cache j hj
  | check2_hit i h hc =>
    have hi := pc_lt_of_getElem? h
    have hli : c.lockHolder = some i := (inv.lock_iff i).mp (Or.inl h)
    refine ⟨by simp [inv.pc_length], ?_, inv.invocations_le, inv.cache_invocations,
      ?_, ?_, ?_⟩
    · intro j
      rw [set_getElem? _ _ _ _ hi]
      by_cases hij : i = j
      · subst hij
        simp only [if_pos rfl]
        constructor
        · rintro (h' | h') <;> cases h'
        · intro he; cases he
      · rw [if_neg hij]
        constructor
        · intro hmem
          have := (inv.lock_iff j).mp hmem
          rw [hli] at this
          exact absurd (Option.some_inj.mp this) hij
        · intro he; cases he
    · intro j hj
      rw [set_getElem? _ _ _ _ hi] at hj
      by_cases hij : i = j
      · rw [if_pos hij] at hj; cases hj
      · rw [if_neg hij] at hj; exact inv.inflight_counted j hj
    · intro h1 h0
      rw [hc] at h0; cases h0
    · intro j _
      exact hc
  | begin_compute i h hc =>
    have hi := pc_lt_of_getElem? h
    have hli : c.lockHolder = some i := (inv.lock_iff i).mp (Or.inl h)
    have hzero : c.invocations = 0 := by
      by_contra h0
      have h1 : c.invocations = 1 := by
        have := inv.invocations_le; omega
      obtain ⟨j, hj⟩ := inv.pending_inflight h1 hc
      have hlj : c.lockHolder = some j := (inv.lock_iff j).mp (Or.inr hj)
      rw [hli] at hlj
      have hij : i = j := Option.some_inj.mp hlj
      rw [← hij, h] at hj
      cases hj
    refine ⟨by simp [inv.pc_length], ?_,
      by show c.invocations + 1 ≤ 1; omega,
      by intro _; show 1 ≤ c.invocations + 1; omega,
      by intro _ _; show 1 ≤ c.invocations + 1; omega, ?_, ?_⟩
    · intro j
      rw [set_getElem? _ _ _ _ hi]
      by_cases hij : i = j
      · subst hij
        simp only [if_pos rfl]
        constructor
        · intro _; exact hli
        · intro _; exact Or.inr rfl
      · rw [if_neg hij]
        exact inv.lock_iff j
    · intro _ _
      exact ⟨i, by rw [set_getElem? _ _ _ _ hi, if_pos rfl]⟩
    · intro j hj
      rw [set_getElem? _ _ _ _ hi] at hj
      by_cases hij : i = j
      · rw [if_pos hij] at hj; cases hj
      · rw [if_neg hij] at hj; exact inv.done_cache j hj
  | end_compute i h =>
    have hi := pc_lt_of_getElem? h
    have hli : c.lockHolder = some i := (inv.lock_iff i).mp (Or.inr h)
    refine ⟨by simp [inv.pc_length], ?_, inv.invocations_le,
      fun _ => inv.inflight_counted i h, ?_, ?_, fun _ _ => rfl⟩
    · intro j
      rw [set_getElem? _ _ _ _ hi]
      by_cases hij : i = j
      · subst hij
        simp only [if_pos rfl]
        constructor
        · rintro (h' | h') <;> cases h'
        · intro he; cases he
      · rw [if_neg hij]
        constructor
        · intro hmem
          have := (inv.lock_iff j).mp hmem
          rw [hli] at this
          exact absurd (Option.some_inj.mp this) hij
        · intro he; cases he
    · intro j hj
      rw [set_getElem? _ _ _ _ hi] at hj
      by_cases hij : i = j
      · rw [if_pos hij] at hj; cases hj
      · rw [if_neg hij] at hj; exact inv.inflight_counted j hj
    · intro _ h0
      cases h0

/-- The coalescing invariant holds in every reachable state. -/
theorem coalesceInv_reachable {n : ℕ} {c : CoalesceConfig}
    (h : CoalesceReachable n c) : CoalesceInv n c := by
  induction h with
  | refl => exact coalesceInv_init n
  | tail _ hstep ih => exact coalesceInv_step ih hstep

/-- C1: in every interleaving of `n` concurrent `get_biography` calls for
the same cache key, at most one upstream pipeline invocation is in flight at
any time, at most one invocation ever starts (waiters that acquire the
per-key lock after the first computation completed take the re-checked cache
hit instead of recomputing), and once every caller has returned exactly one
invocation has happened. -/
theorem c1_request_coalescing (n : ℕ) (c : CoalesceConfig)
    (h : CoalesceReachable n c) :
    (∀ i j : ℕ, c.pc[i]? = some CallerPC.inflight →
        c.pc[j]? = some CallerPC.inflight → i = j)
    ∧ c.invocations ≤ 1
    ∧ (0 < n → (∀ i : ℕ, i < n → c.pc[i]? = some CallerPC.done) →
        c.invocations = 1) := by
  have inv := coalesceInv_reachable h
  refine ⟨?_, inv.invocations_le, ?_⟩
  · intro i j hi hj
    have h1 := (inv.lock_iff i).mp (Or.inr hi)
    have h2 := (inv.lock_iff j).mp (Or.inr hj)
    rw [h1] at h2
    exact Option.some_inj.mp h2
  · intro hn hdone
    have hcache := inv.done_cache 0 (hdone 0 hn)
    have h1 := inv.cache_invocations hcache
    have h2 := inv.invocations_le
    omega

/-- C1, witness: a run of one caller from the cold-cache initial state to
completion. -/
theorem c1_request_coalescing_witness :
    CoalesceReachable 1 ⟨true, none, 1, [CallerPC.done]⟩
    ∧ (⟨true, none, 1, [CallerPC.done]⟩ : CoalesceConfig).invocations ≤ 1
    ∧ ((0 : ℕ) < 1 →
        (∀ i : ℕ, i < 1 →
          (⟨true, none, 1, [CallerPC.done]⟩ : CoalesceConfig).pc[i]?
            = some CallerPC.done) →
        (⟨true, none, 1, [CallerPC.done]⟩ : CoalesceConfig).invocations = 1) := by
  have s1 : CoalesceStep (coalesceInit 1) ⟨false, none, 0, [CallerPC.waiting]⟩ :=
    CoalesceStep.check1_miss (coalesceInit 1) 0 rfl rfl
  have s2 : CoalesceStep ⟨false, none, 0, [CallerPC.waiting]⟩
      ⟨false, some 0, 0, [CallerPC.critical]⟩ :=
    CoalesceStep.acquire _ 0 rfl rfl
  have s3 : CoalesceStep ⟨false, some 0, 0, [CallerPC.critical]⟩
      ⟨false, some 0, 1, [CallerPC.inflight]⟩ :=
    CoalesceStep.begin_compute _ 0 rfl rfl
  have s4 : CoalesceStep ⟨false, some 0, 1, [CallerPC.inflight]⟩
      ⟨true, none, 1, [CallerPC.done]⟩ :=
    CoalesceStep.end_compute _ 0 rfl
  have hr : CoalesceReachable 1 ⟨true, none, 1, [CallerPC.done]⟩ :=
    Relation.ReflTransGen.tail
      (Relation.ReflTransGen.tail
        (Relation.ReflTransGen.tail
          (Relation.ReflTransGen.tail Relation.ReflTransGen.refl s1) s2) s3) s4
  exact ⟨hr, (c1_request_coalescing 1 _ hr).2.1, (c1_request_coalescing 1 _ hr).2.2⟩

end LifeTracer
